import Mathlib

/-!
Verification development for the `strcursor` crate: a shallow embedding of
its UTF-8 boundary utilities (`src/util.rs`), grapheme-cluster types
(`src/grapheme.rs`) and string cursor (`src/cursor.rs`, plus the older
inline variant in `src/lib.rs`), together with proofs about the embedded
definitions.

Modelling conventions:
* a Unicode scalar value (Rust `char`) is a `Nat`;
* a string slice (`&str`) is its list of UTF-8 bytes (`List Nat`),
  produced from a list of scalars by `encodeStr`;
* a borrowed buffer is identified by an abstract address `Nat` (the value
  of `as_ptr()`), carried alongside the bytes;
* fallible operations return `Option`; panics (`panic!`,
  `debug_unreachable!`) are modelled as `none`.
-/

namespace Strcursor

/-- A valid Unicode scalar value: below 0x110000 and not a surrogate.
This is the invariant of Rust's `char` type. -/
def ValidScalar (c : Nat) : Prop := c < 0x110000 ∧ (c < 0xD800 ∨ 0xE000 ≤ c)

instance (c : Nat) : Decidable (ValidScalar c) := by
  unfold ValidScalar; infer_instance

/-- `encode_utf8_raw` from `src/util.rs` (lines 136-159): encodes a 32-bit
code point into 1-4 UTF-8 bytes using the thresholds 0x80, 0x800, 0x10000,
given a destination buffer of `dstLen` bytes; returns the bytes written,
or `none` if the buffer is too small. -/
def encode_utf8_raw (code : Nat) (dstLen : Nat) : Option (List Nat) :=
  if code < 0x80 ∧ dstLen ≠ 0 then
    some [code]
  else if code < 0x800 ∧ 2 ≤ dstLen then
    some [((code >>> 6) &&& 0x1F) ||| 0xC0,
          (code &&& 0x3F) ||| 0x80]
  else if code < 0x10000 ∧ 3 ≤ dstLen then
    some [((code >>> 12) &&& 0x0F) ||| 0xE0,
          ((code >>> 6) &&& 0x3F) ||| 0x80,
          (code &&& 0x3F) ||| 0x80]
  else if 4 ≤ dstLen then
    some [((code >>> 18) &&& 0x07) ||| 0xF0,
          ((code >>> 12) &&& 0x3F) ||| 0x80,
          ((code >>> 6) &&& 0x3F) ||| 0x80,
          (code &&& 0x3F) ||| 0x80]
  else none

/-- The UTF-8 bytes of a scalar: `encode_utf8_raw` with a 4-byte buffer,
which always succeeds. -/
def encodeChar (code : Nat) : List Nat := (encode_utf8_raw code 4).getD []

/-- Rust `char::len_utf8`. -/
def utf8Len (code : Nat) : Nat :=
  if code < 0x80 then 1 else if code < 0x800 then 2
  else if code < 0x10000 then 3 else 4

/-- The UTF-8 bytes of a list of scalars (the byte content of a `&str`). -/
def encodeStr (cs : List Nat) : List Nat := cs.flatMap encodeChar

/-- Whether a byte is a UTF-8 continuation byte (top bits `10`), exactly the
test `*from & 0b11_00_0000 == 0b10_00_0000` from `src/util.rs`. -/
def isCont (b : Nat) : Bool := (b &&& 0xC0) == 0x80

/-- Decode the first UTF-8 code point of a byte string: the scalar value and
the number of bytes consumed.  This is the standard meaning of UTF-8 bytes
and models reading the first `char` of a `&str` (`str::chars().next()`). -/
def decodeChar : List Nat → Option (Nat × Nat)
  | [] => none
  | b0 :: rest =>
    if b0 < 0x80 then some (b0, 1)
    else if b0 < 0xC0 then none
    else if b0 < 0xE0 then
      match rest with
      | b1 :: _ =>
        if isCont b1 then some ((b0 - 0xC0) * 0x40 + (b1 - 0x80), 2) else none
      | [] => none
    else if b0 < 0xF0 then
      match rest with
      | b1 :: b2 :: _ =>
        if isCont b1 && isCont b2 then
          some ((b0 - 0xE0) * 0x1000 + (b1 - 0x80) * 0x40 + (b2 - 0x80), 3)
        else none
      | _ => none
    else if b0 < 0xF8 then
      match rest with
      | b1 :: b2 :: b3 :: _ =>
        if isCont b1 && isCont b2 && isCont b3 then
          some ((b0 - 0xF0) * 0x40000 + (b1 - 0x80) * 0x1000 +
                (b2 - 0x80) * 0x40 + (b3 - 0x80), 4)
        else none
      | _ => none
    else none

/-- Modelled from the spec: the external Grapheme Segmentation Oracle
(the `unicode-segmentation` crate, section 6 of the spec) is not part of this
repository; we model its notion of a combining mark by a concrete set, the
Combining Diacritical Marks block U+0300..U+036F. -/
def isMark (c : Nat) : Bool := decide (0x300 ≤ c) && decide (c < 0x370)

/-- Modelled from the spec: byte length of the run of combining-mark code
points at the front of a byte string (fuel-based recursion; `fuel` at least
the byte length is enough). -/
def marksLen : Nat → List Nat → Nat
  | 0, _ => 0
  | fuel+1, s =>
    match decodeChar s with
    | some (c, k) => if isMark c then k + marksLen fuel (s.drop k) else 0
    | none => 0

/-- Modelled from the spec: byte length of the first extended grapheme
cluster of a byte string (a base code point plus any following combining
marks), or `none` for the empty string. -/
def grFirstLen (s : List Nat) : Option Nat :=
  match decodeChar s with
  | some (_, k) => some (k + marksLen s.length (s.drop k))
  | none => none

/-- Modelled from the spec: the oracle's first cluster of a byte string and
the remaining text (`graphemes(s).next()` plus the tail). -/
def grFirst (s : List Nat) : Option (List Nat × List Nat) :=
  match grFirstLen s with
  | some n => some (s.take n, s.drop n)
  | none => none

/-- Modelled from the spec: the ordered sequence of grapheme clusters
covering a byte string (fuel-based; `graphemes(s)` as a list). -/
def graphemesAux : Nat → List Nat → List (List Nat)
  | 0, _ => []
  | fuel+1, s =>
    match grFirst s with
    | some (g, rest) => g :: graphemesAux fuel rest
    | none => []

/-- Modelled from the spec: `graphemes(s, true)` collected into a list. -/
def graphemes (s : List Nat) : List (List Nat) := graphemesAux s.length s

/-- The oracle's segmentation expressed on scalars rather than bytes;
used to relate the byte-level functions to the char structure. -/
def graphemesChars (cs : List Nat) : List (List Nat) :=
  match cs with
  | [] => []
  | c :: rest =>
    (c :: List.takeWhile isMark rest) :: graphemesChars (List.dropWhile isMark rest)
termination_by cs.length
decreasing_by
  simp only [List.length_cons]
  exact Nat.lt_succ_of_le (List.Sublist.length_le (List.dropWhile_sublist isMark))

/-- `Gc::split_from` (`src/grapheme.rs` lines 80-88): the first grapheme
cluster of `s` and the remaining tail, or `none` when `s` is empty. -/
def Gc.split_from (s : List Nat) : Option (List Nat × List Nat) := grFirst s

/-- `Gc::from_str` (`src/grapheme.rs` lines 59-64): succeeds only when the
tail left by `split_from` is empty. -/
def Gc.from_str (s : List Nat) : Option (List Nat) :=
  match Gc.split_from s with
  | some (gc, tail) => if tail.length = 0 then some gc else none
  | none => none

/-- `Gc::base_char` (`src/grapheme.rs` lines 125-132): the first code point.
The empty case is `debug_unreachable!` in the source (a valid `Gc` is never
empty); we return 0 there. -/
def Gc.base_char (g : List Nat) : Nat := ((decodeChar g).map Prod.fst).getD 0

/-- `Gc::has_marks` (`src/grapheme.rs` lines 102-104):
`base_char().len_utf8() != as_str().len()`. -/
def Gc.has_marks (g : List Nat) : Bool := utf8Len (Gc.base_char g) != g.length

/-- `Gc::mark_str` (`src/grapheme.rs` lines 187-193): the bytes after the
first code point, `slice_unchecked(base_len, len)`. -/
def Gc.mark_str (g : List Nat) : List Nat := g.drop (utf8Len (Gc.base_char g))

/-- `Gc::base` (`src/grapheme.rs` lines 139-145).  Note the source slices
`slice_unchecked(base_len, self.0.len())` — the bytes after the first code
point, identical to `mark_str`. -/
def Gc.base (g : List Nat) : List Nat := g.drop (utf8Len (Gc.base_char g))

/-- Rust's total comparison of `char` values (`char::partial_cmp`, always
`Some`), on scalar values. -/
def charCmp (a b : Nat) : Ordering :=
  if a < b then Ordering.lt else if a = b then Ordering.eq else Ordering.gt

/-- `impl PartialEq of char for Gc` (`src/grapheme.rs` lines 267-271):
`!self.has_marks() && self.base_char().eq(other)`. -/
def Gc.eqChar (g : List Nat) (ch : Nat) : Bool :=
  !(Gc.has_marks g) && (Gc.base_char g == ch)

/-- `impl PartialEq of Gc for char` (`src/grapheme.rs` lines 333-337):
`self.eq(&other.base_char())`. -/
def charEqGc (ch : Nat) (g : List Nat) : Bool := ch == Gc.base_char g

/-- `impl PartialOrd of char for Gc` (`src/grapheme.rs` lines 399-410). -/
def Gc.cmpChar (g : List Nat) (ch : Nat) : Option Ordering :=
  if !(Gc.has_marks g) then
    some (charCmp (Gc.base_char g) ch)
  else
    match charCmp (Gc.base_char g) ch with
    | Ordering.eq => some Ordering.lt
    | o => some o

/-- `impl PartialOrd of Gc for char` (`src/grapheme.rs` lines 472-476), and
identically `impl PartialOrd of the reference type for char` (lines 502-506):
`self.partial_cmp(&other.base_char())`. -/
def charCmpGc (ch : Nat) (g : List Nat) : Option Ordering :=
  some (charCmp ch (Gc.base_char g))

/-- `impl PartialOrd of char for &Gc` (`src/grapheme.rs` lines 442-446):
`other.partial_cmp(self).map(Ordering::reverse)`, routed through
`charCmpGc`. -/
def refGcCmpChar (g : List Nat) (ch : Nat) : Option Ordering :=
  (charCmpGc ch g).map Ordering.swap

/-- `impl PartialEq of str for Gc` (`src/grapheme.rs` lines 273-277):
plain string equality. -/
def Gc.eqStr (g t : List Nat) : Bool := g == t

/-- `impl PartialEq of Gc for str` (`src/grapheme.rs` lines 339-343). -/
def strEqGc (t g : List Nat) : Bool := t == g

/-- Lexicographic comparison of byte strings (`str::partial_cmp`, always
`Some` in Rust; we give the `Ordering` directly). -/
def strCompare : List Nat → List Nat → Ordering
  | [], [] => Ordering.eq
  | [], _ :: _ => Ordering.lt
  | _ :: _, [] => Ordering.gt
  | a :: xs, b :: ys =>
    match charCmp a b with
    | Ordering.eq => strCompare xs ys
    | o => o

/-- `impl PartialOrd of str for Gc` (`src/grapheme.rs` lines 412-416). -/
def Gc.cmpStr (g t : List Nat) : Option Ordering := some (strCompare g t)

/-- `impl PartialOrd of Gc for str` (`src/grapheme.rs` lines 478-482). -/
def strCmpGc (t g : List Nat) : Option Ordering := some (strCompare t g)

/-- `impl PartialEq of char for GcBuf` (`src/grapheme.rs` line 703, via the
`forward_partial_eq` macro): `self.as_gc().eq(other)`. -/
def GcBuf.eqChar (b : List Nat) (ch : Nat) : Bool := Gc.eqChar b ch

/-- `impl PartialEq of GcBuf for char` (`src/grapheme.rs` line 711):
`other.as_gc().eq(self)`. -/
def charEqGcBuf (ch : Nat) (b : List Nat) : Bool := Gc.eqChar b ch

/-- `impl PartialOrd of char for GcBuf` (`src/grapheme.rs` line 755):
`self.as_gc().partial_cmp(other)`. -/
def GcBuf.cmpChar (b : List Nat) (ch : Nat) : Option Ordering := Gc.cmpChar b ch

/-- `impl PartialOrd of GcBuf for char` (`src/grapheme.rs` line 763):
`other.as_gc().partial_cmp(self).map(Ordering::reverse)`. -/
def charCmpGcBuf (ch : Nat) (b : List Nat) : Option Ordering :=
  (Gc.cmpChar b ch).map Ordering.swap

/-- `impl From of char for GcBuf` (`src/grapheme.rs` lines 622-641):
`encode_utf8_raw` into a 4-byte buffer, then the guard `if len < 4`;
both `debug_unreachable!` arms are modelled as `none`. -/
def GcBuf.from_char (v : Nat) : Option (List Nat) :=
  match encode_utf8_raw v 4 with
  | some bs => if bs.length < 4 then some bs else none
  | none => none

/-- A cursor into a string slice (`StrCursor` from `src/cursor.rs`):
the borrowed buffer (its address and bytes) and the byte offset of the
cursor (the `at` pointer, relative to `s.as_ptr()`). -/
structure StrCursor where
  ptr : Nat
  s : List Nat
  pos : Nat
  deriving DecidableEq, Repr

/-- `str_eq_literal` (`src/util.rs` lines 94-97): pointer identity — same
start address and same length. -/
def str_eq_literal (p1 : Nat) (s1 : List Nat) (p2 : Nat) (s2 : List Nat) : Bool :=
  p1 == p2 && s1.length == s2.length

/-- `StrCursor::new_at_start`. -/
def new_at_start (ptr : Nat) (s : List Nat) : StrCursor := ⟨ptr, s, 0⟩

/-- `StrCursor::new_at_end`. -/
def new_at_end (ptr : Nat) (s : List Nat) : StrCursor := ⟨ptr, s, s.length⟩

/-- `StrCursor::slice_before`: the bytes left of the cursor. -/
def slice_before (c : StrCursor) : List Nat := c.s.take c.pos

/-- `StrCursor::slice_after`: the bytes right of the cursor. -/
def slice_after (c : StrCursor) : List Nat := c.s.drop c.pos

/-- `StrCursor::slice_all`: the whole backing string. -/
def slice_all (c : StrCursor) : List Nat := c.s

/-- `StrCursor::byte_pos`. -/
def byte_pos (c : StrCursor) : Nat := c.pos

/-- `StrCursor::slice_between` (`src/cursor.rs` lines 237-250): `none` when
`str_eq_literal` rejects the pair, else the bytes between the two offsets
(`from_raw_parts(min, max - min)` on the shared buffer). -/
def slice_between (c other : StrCursor) : Option (List Nat) :=
  if !(str_eq_literal c.ptr c.s other.ptr other.s) then none
  else some ((c.s.take (max c.pos other.pos)).drop (min c.pos other.pos))

/-- `seek_utf8_cp_start_left` (`src/util.rs` lines 38-44): step the offset
left while it is above 0 and the byte there is a continuation byte. -/
def seek_utf8_cp_start_left (s : List Nat) : Nat → Nat
  | 0 => 0
  | i+1 => if isCont (s.getD (i+1) 0) then seek_utf8_cp_start_left s i else i + 1

/-- Fuel-based worker for the rightward scan. -/
def seekRightAux : Nat → List Nat → Nat → Nat
  | 0, _, i => i
  | fuel+1, s, i =>
    if i < s.length ∧ isCont (s.getD i 0) then seekRightAux fuel s (i+1) else i

/-- `seek_utf8_cp_start_right` (`src/util.rs` lines 67-73): step the offset
right while it is below the length and the byte there is a continuation
byte. -/
def seek_utf8_cp_start_right (s : List Nat) (i : Nat) : Nat :=
  seekRightAux (s.length - i) s i

/-- `StrCursor::try_seek_left_cp` (`src/cursor.rs` lines 684-694); the
`bool`-and-mutate protocol is modelled as `Option`. -/
def try_seek_left_cp (c : StrCursor) : Option StrCursor :=
  if c.pos = 0 then none
  else some { c with pos := seek_utf8_cp_start_left c.s (c.pos - 1) }

/-- `StrCursor::try_seek_right_cp` (`src/cursor.rs` lines 696-706). -/
def try_seek_right_cp (c : StrCursor) : Option StrCursor :=
  if c.pos = c.s.length then none
  else some { c with pos := seek_utf8_cp_start_right c.s (c.pos + 1) }

/-- `StrCursor::try_seek_left_gr` (`src/cursor.rs` lines 708-723): the last
cluster of `slice_before` (`graphemes(..).next_back()`), stepping left by
its byte length. -/
def try_seek_left_gr (c : StrCursor) : Option StrCursor :=
  match (graphemes (slice_before c)).getLast? with
  | some gr => some { c with pos := c.pos - gr.length }
  | none => none

/-- `StrCursor::try_seek_right_gr` (`src/cursor.rs` lines 725-740): the
first cluster of `slice_after`, stepping right by its byte length. -/
def try_seek_right_gr (c : StrCursor) : Option StrCursor :=
  match grFirst (slice_after c) with
  | some (gr, _) => some { c with pos := c.pos + gr.length }
  | none => none

/-- `StrCursor::at_prev`. -/
def at_prev (c : StrCursor) : Option StrCursor := try_seek_left_gr c

/-- `StrCursor::at_next`. -/
def at_next (c : StrCursor) : Option StrCursor := try_seek_right_gr c

/-- `StrCursor::at_prev_cp`. -/
def at_prev_cp (c : StrCursor) : Option StrCursor := try_seek_left_cp c

/-- `StrCursor::at_next_cp`. -/
def at_next_cp (c : StrCursor) : Option StrCursor := try_seek_right_cp c

/-- `StrCursor::after` (`src/cursor.rs` lines 181-183):
`Gc::split_from(self.slice_after()).map(|(gc, _)| gc)`. -/
def after (c : StrCursor) : Option (List Nat) :=
  (Gc.split_from (slice_after c)).map Prod.fst

/-- `StrCursor::seek_prev` (`src/cursor.rs` lines 418-423): in-place, via
`try_seek_left_gr`; the panic on failure is modelled as `none`. -/
def seek_prev (c : StrCursor) : Option StrCursor := try_seek_left_gr c

/-- `StrCursor::seek_prev` as written in the older inline implementation
(`src/lib.rs` lines 183-188), which calls `try_seek_right_gr`; the panic on
failure is modelled as `none`. -/
def seek_prev_lib (c : StrCursor) : Option StrCursor := try_seek_right_gr c

/-- `StrCursor::new_at_cp_left_of_byte_pos` (`src/cursor.rs` lines 142-147).
The bounds panic of `byte_pos_to_ptr` is a precondition of the theorems
(`pos` at most the length). -/
def new_at_cp_left_of_byte_pos (ptr : Nat) (s : List Nat) (p : Nat) : StrCursor :=
  ⟨ptr, s, seek_utf8_cp_start_left s p⟩

/-- `StrCursor::new_at_cp_right_of_byte_pos` (`src/cursor.rs` lines 157-162). -/
def new_at_cp_right_of_byte_pos (ptr : Nat) (s : List Nat) (p : Nat) : StrCursor :=
  ⟨ptr, s, seek_utf8_cp_start_right s p⟩

/-- `StrCursor::new_at_left_of_byte_pos` (`src/cursor.rs` lines 99-117):
`cur` is the code-point-snapped cursor, `prev` the result of `cur.at_prev()`;
if the cluster after `prev` covers `p`, return `prev`, else `cur`.  The
source's `prev.after().unwrap()` cannot fail there; we return `cur` on that
unreachable branch. -/
def new_at_left_of_byte_pos (ptr : Nat) (s : List Nat) (p : Nat) : StrCursor :=
  match at_prev (new_at_cp_left_of_byte_pos ptr s p) with
  | none => new_at_cp_left_of_byte_pos ptr s p
  | some prev =>
    match after prev with
    | some g =>
      if prev.pos + g.length > p then prev else new_at_cp_left_of_byte_pos ptr s p
    | none => new_at_cp_left_of_byte_pos ptr s p

/-- `StrCursor::new_at_right_of_byte_pos` (`src/cursor.rs` lines 123-132):
derived from the left-of constructor, stepping one grapheme forward when the
left answer is not `p` itself.  The source's `cur.at_next().unwrap()` cannot
fail there; we return `cur` on that unreachable branch. -/
def new_at_right_of_byte_pos (ptr : Nat) (s : List Nat) (p : Nat) : StrCursor :=
  if (new_at_left_of_byte_pos ptr s p).pos = p then new_at_left_of_byte_pos ptr s p
  else (at_next (new_at_left_of_byte_pos ptr s p)).getD (new_at_left_of_byte_pos ptr s p)

/-- The safe (Option-returning) movement operations of the cursor. -/
inductive Move where
  | prevGr : Move
  | nextGr : Move
  | prevCp : Move
  | nextCp : Move
  deriving DecidableEq, Repr

/-- Apply one safe movement; a failed movement leaves the cursor where it
was (the source returns `None` and the caller keeps the old cursor). -/
def applyMove (c : StrCursor) : Move → StrCursor
  | Move.prevGr => (at_prev c).getD c
  | Move.nextGr => (at_next c).getD c
  | Move.prevCp => (at_prev_cp c).getD c
  | Move.nextCp => (at_next_cp c).getD c

/-- Apply a sequence of safe movements. -/
def applyMoves (c : StrCursor) (ms : List Move) : StrCursor := ms.foldl applyMove c

/-- The public cursor constructors (`stop` is `new_at_end`). -/
inductive Ctor where
  | start : Ctor
  | stop : Ctor
  | cpLeft : Nat → Ctor
  | cpRight : Nat → Ctor
  | grLeft : Nat → Ctor
  | grRight : Nat → Ctor
  deriving DecidableEq, Repr

/-- The byte-position argument of a constructor (0 for start/end). -/
def ctorArg : Ctor → Nat
  | Ctor.start => 0
  | Ctor.stop => 0
  | Ctor.cpLeft p => p
  | Ctor.cpRight p => p
  | Ctor.grLeft p => p
  | Ctor.grRight p => p

/-- Build a cursor with a public constructor. -/
def construct (ptr : Nat) (s : List Nat) : Ctor → StrCursor
  | Ctor.start => new_at_start ptr s
  | Ctor.stop => new_at_end ptr s
  | Ctor.cpLeft p => new_at_cp_left_of_byte_pos ptr s p
  | Ctor.cpRight p => new_at_cp_right_of_byte_pos ptr s p
  | Ctor.grLeft p => new_at_left_of_byte_pos ptr s p
  | Ctor.grRight p => new_at_right_of_byte_pos ptr s p

/-- Iterate an Option-returning step, stopping at the first failure. -/
def iterOpt (f : StrCursor → Option StrCursor) : Nat → StrCursor → StrCursor
  | 0, c => c
  | n+1, c =>
    match f c with
    | some c2 => iterOpt f n c2
    | none => c

/-- A byte offset that lies on a code-point boundary of the scalar list
`cs`: it is the byte length of the encoding of some prefix of `cs`. -/
def CharBoundary (cs : List Nat) (i : Nat) : Prop :=
  ∃ k, k ≤ cs.length ∧ i = (encodeStr (cs.take k)).length

/-- The byte of `s` at offset `i` (0 past the end, where the source would
not dereference). -/
def byteAt (s : List Nat) (i : Nat) : Nat := s.getD i 0

/-- A byte offset that the code's own test recognises as a code-point
boundary: in range, and either at the very end or on a non-continuation
byte. -/
def ByteBoundary (s : List Nat) (i : Nat) : Prop :=
  i ≤ s.length ∧ (i = s.length ∨ isCont (byteAt s i) = false)

/-! ### Bit-level facts about the UTF-8 encoding -/

theorem orTag80 : ∀ x < 0x40, (x ||| 0x80) - 0x80 = x ∧ 0x80 ≤ x ||| 0x80 ∧
    x ||| 0x80 < 0xC0 ∧ isCont (x ||| 0x80) = true := by decide

theorem orTagC0 : ∀ x < 0x20, (x ||| 0xC0) - 0xC0 = x ∧ 0xC0 ≤ x ||| 0xC0 ∧
    x ||| 0xC0 < 0xE0 ∧ isCont (x ||| 0xC0) = false := by decide

theorem orTagE0 : ∀ x < 0x10, (x ||| 0xE0) - 0xE0 = x ∧ 0xE0 ≤ x ||| 0xE0 ∧
    x ||| 0xE0 < 0xF0 ∧ isCont (x ||| 0xE0) = false := by decide

theorem orTagF0 : ∀ x < 0x08, (x ||| 0xF0) - 0xF0 = x ∧ 0xF0 ≤ x ||| 0xF0 ∧
    x ||| 0xF0 < 0xF8 ∧ isCont (x ||| 0xF0) = false := by decide

theorem andMask3F (x : Nat) : x &&& 0x3F = x % 0x40 := by
  have h := Nat.and_pow_two_sub_one_eq_mod x 6
  norm_num at h
  exact h

theorem andMask1F (x : Nat) : x &&& 0x1F = x % 0x20 := by
  have h := Nat.and_pow_two_sub_one_eq_mod x 5
  norm_num at h
  exact h

theorem andMask0F (x : Nat) : x &&& 0x0F = x % 0x10 := by
  have h := Nat.and_pow_two_sub_one_eq_mod x 4
  norm_num at h
  exact h

theorem andMask07 (x : Nat) : x &&& 0x07 = x % 0x08 := by
  have h := Nat.and_pow_two_sub_one_eq_mod x 3
  norm_num at h
  exact h

theorem shr6 (x : Nat) : x >>> 6 = x / 0x40 := by
  rw [Nat.shiftRight_eq_div_pow]

theorem shr12 (x : Nat) : x >>> 12 = x / 0x1000 := by
  rw [Nat.shiftRight_eq_div_pow]

theorem shr18 (x : Nat) : x >>> 18 = x / 0x40000 := by
  rw [Nat.shiftRight_eq_div_pow]

/-! ### Shape of the encoding -/

theorem encodeChar_one {c : Nat} (h : c < 0x80) : encodeChar c = [c] := by
  unfold encodeChar encode_utf8_raw
  rw [if_pos ⟨h, by norm_num⟩]
  rfl

theorem encodeChar_two {c : Nat} (h1 : ¬ c < 0x80) (h2 : c < 0x800) :
    encodeChar c = [((c >>> 6) &&& 0x1F) ||| 0xC0, (c &&& 0x3F) ||| 0x80] := by
  unfold encodeChar encode_utf8_raw
  rw [if_neg (by simp [h1]), if_pos ⟨h2, by norm_num⟩]
  rfl

theorem encodeChar_three {c : Nat} (h2 : ¬ c < 0x800) (h3 : c < 0x10000) :
    encodeChar c = [((c >>> 12) &&& 0x0F) ||| 0xE0, ((c >>> 6) &&& 0x3F) ||| 0x80,
      (c &&& 0x3F) ||| 0x80] := by
  unfold encodeChar encode_utf8_raw
  rw [if_neg (by simp; omega), if_neg (by simp [h2]), if_pos ⟨h3, by norm_num⟩]
  rfl

theorem encodeChar_four {c : Nat} (h3 : ¬ c < 0x10000) :
    encodeChar c = [((c >>> 18) &&& 0x07) ||| 0xF0, ((c >>> 12) &&& 0x3F) ||| 0x80,
      ((c >>> 6) &&& 0x3F) ||| 0x80, (c &&& 0x3F) ||| 0x80] := by
  unfold encodeChar encode_utf8_raw
  rw [if_neg (by simp; omega), if_neg (by simp; omega), if_neg (by simp [h3]),
    if_pos (by norm_num)]
  rfl

theorem length_encodeChar (c : Nat) : (encodeChar c).length = utf8Len c := by
  by_cases h1 : c < 0x80
  · rw [encodeChar_one h1]; simp [utf8Len, h1]
  by_cases h2 : c < 0x800
  · rw [encodeChar_two h1 h2]; simp [utf8Len, h1, h2]
  by_cases h3 : c < 0x10000
  · rw [encodeChar_three h2 h3]; simp [utf8Len, h1, h2, h3]
  · rw [encodeChar_four h3]; simp [utf8Len, h1, h2, h3]

theorem utf8Len_pos (c : Nat) : 0 < utf8Len c := by
  unfold utf8Len; split_ifs <;> norm_num

theorem encodeChar_ne_nil (c : Nat) : encodeChar c ≠ [] := by
  have h := length_encodeChar c
  have h2 := utf8Len_pos c
  intro hn
  rw [hn] at h
  simp at h
  omega

theorem encodeChar_struct (c : Nat) :
    ∃ b t, encodeChar c = b :: t ∧ isCont b = false ∧ ∀ x ∈ t, isCont x = true := by
  by_cases h1 : c < 0x80
  · refine ⟨c, [], encodeChar_one h1, ?_, by simp⟩
    have hle : c &&& 0xC0 ≤ c := Nat.and_le_left
    simp only [isCont, beq_eq_false_iff_ne, ne_eq]
    omega
  by_cases h2 : c < 0x800
  · have hx : (c >>> 6) &&& 0x1F < 0x20 := lt_of_le_of_lt Nat.and_le_right (by norm_num)
    have hy : c &&& 0x3F < 0x40 := lt_of_le_of_lt Nat.and_le_right (by norm_num)
    refine ⟨_, _, encodeChar_two h1 h2, (orTagC0 _ hx).2.2.2, ?_⟩
    intro x hxm
    simp only [List.mem_singleton] at hxm
    subst hxm
    exact (orTag80 _ hy).2.2.2
  by_cases h3 : c < 0x10000
  · have hx : (c >>> 12) &&& 0x0F < 0x10 := lt_of_le_of_lt Nat.and_le_right (by norm_num)
    have hy : (c >>> 6) &&& 0x3F < 0x40 := lt_of_le_of_lt Nat.and_le_right (by norm_num)
    have hz : c &&& 0x3F < 0x40 := lt_of_le_of_lt Nat.and_le_right (by norm_num)
    refine ⟨_, _, encodeChar_three h2 h3, (orTagE0 _ hx).2.2.2, ?_⟩
    intro x hxm
    simp only [List.mem_cons, List.not_mem_nil, or_false] at hxm
    rcases hxm with rfl | rfl
    · exact (orTag80 _ hy).2.2.2
    · exact (orTag80 _ hz).2.2.2
  · have hx : (c >>> 18) &&& 0x07 < 0x08 := lt_of_le_of_lt Nat.and_le_right (by norm_num)
    have hy : (c >>> 12) &&& 0x3F < 0x40 := lt_of_le_of_lt Nat.and_le_right (by norm_num)
    have hz : (c >>> 6) &&& 0x3F < 0x40 := lt_of_le_of_lt Nat.and_le_right (by norm_num)
    have hw : c &&& 0x3F < 0x40 := lt_of_le_of_lt Nat.and_le_right (by norm_num)
    refine ⟨_, _, encodeChar_four h3, (orTagF0 _ hx).2.2.2, ?_⟩
    intro x hxm
    simp only [List.mem_cons, List.not_mem_nil, or_false] at hxm
    rcases hxm with rfl | rfl | rfl
    · exact (orTag80 _ hy).2.2.2
    · exact (orTag80 _ hz).2.2.2
    · exact (orTag80 _ hw).2.2.2

/-! ### The decode-encode round trip -/

theorem decodeChar_encodeChar (c : Nat) (hc : c < 0x110000) (r : List Nat) :
    decodeChar (encodeChar c ++ r) = some (c, utf8Len c) := by
  by_cases h1 : c < 0x80
  · rw [encodeChar_one h1]
    simp only [List.cons_append, List.nil_append, decodeChar, if_pos h1]
    simp [utf8Len, h1]
  by_cases h2 : c < 0x800
  · have hx : (c >>> 6) &&& 0x1F < 0x20 := lt_of_le_of_lt Nat.and_le_right (by norm_num)
    have hy : c &&& 0x3F < 0x40 := lt_of_le_of_lt Nat.and_le_right (by norm_num)
    obtain ⟨e1, e2, e3, -⟩ := orTagC0 _ hx
    obtain ⟨f1, -, -, f4⟩ := orTag80 _ hy
    have hA : (((c >>> 6) &&& 0x1F) ||| 0xC0) - 0xC0 = c / 0x40 % 0x20 := by
      rw [e1, shr6, andMask1F]
    have hB : ((c &&& 0x3F) ||| 0x80) - 0x80 = c % 0x40 := by
      rw [f1, andMask3F]
    rw [encodeChar_two h1 h2]
    simp only [List.cons_append, List.nil_append, decodeChar]
    rw [if_neg (by omega : ¬ (((c >>> 6) &&& 0x1F) ||| 0xC0) < 0x80),
      if_neg (by omega : ¬ (((c >>> 6) &&& 0x1F) ||| 0xC0) < 0xC0),
      if_pos e3, f4, if_pos rfl]
    simp only [utf8Len, if_neg h1, if_pos h2, Option.some.injEq, Prod.mk.injEq, and_true]
    omega
  by_cases h3 : c < 0x10000
  · have hx : (c >>> 12) &&& 0x0F < 0x10 := lt_of_le_of_lt Nat.and_le_right (by norm_num)
    have hy : (c >>> 6) &&& 0x3F < 0x40 := lt_of_le_of_lt Nat.and_le_right (by norm_num)
    have hz : c &&& 0x3F < 0x40 := lt_of_le_of_lt Nat.and_le_right (by norm_num)
    obtain ⟨e1, e2, e3, -⟩ := orTagE0 _ hx
    obtain ⟨f1, -, -, f4⟩ := orTag80 _ hy
    obtain ⟨g1, -, -, g4⟩ := orTag80 _ hz
    have hA : (((c >>> 12) &&& 0x0F) ||| 0xE0) - 0xE0 = c / 0x1000 % 0x10 := by
      rw [e1, shr12, andMask0F]
    have hB : (((c >>> 6) &&& 0x3F) ||| 0x80) - 0x80 = c / 0x40 % 0x40 := by
      rw [f1, shr6, andMask3F]
    have hC : ((c &&& 0x3F) ||| 0x80) - 0x80 = c % 0x40 := by
      rw [g1, andMask3F]
    rw [encodeChar_three h2 h3]
    simp only [List.cons_append, List.nil_append, decodeChar]
    rw [if_neg (by omega : ¬ (((c >>> 12) &&& 0x0F) ||| 0xE0) < 0x80),
      if_neg (by omega : ¬ (((c >>> 12) &&& 0x0F) ||| 0xE0) < 0xC0),
      if_neg (by omega : ¬ (((c >>> 12) &&& 0x0F) ||| 0xE0) < 0xE0),
      if_pos e3, f4, g4]
    simp only [Bool.and_self, if_true]
    have hdiv1 : c / 0x40 / 0x40 = c / 0x1000 := by
      rw [Nat.div_div_eq_div_mul]
    simp only [utf8Len, if_neg h1, if_neg h2, if_pos h3, Option.some.injEq,
      Prod.mk.injEq, and_true]
    omega
  · have hx : (c >>> 18) &&& 0x07 < 0x08 := lt_of_le_of_lt Nat.and_le_right (by norm_num)
    have hy : (c >>> 12) &&& 0x3F < 0x40 := lt_of_le_of_lt Nat.and_le_right (by norm_num)
    have hz : (c >>> 6) &&& 0x3F < 0x40 := lt_of_le_of_lt Nat.and_le_right (by norm_num)
    have hw : c &&& 0x3F < 0x40 := lt_of_le_of_lt Nat.and_le_right (by norm_num)
    obtain ⟨e1, e2, e3, -⟩ := orTagF0 _ hx
    obtain ⟨f1, -, -, f4⟩ := orTag80 _ hy
    obtain ⟨g1, -, -, g4⟩ := orTag80 _ hz
    obtain ⟨k1, -, -, k4⟩ := orTag80 _ hw
    have hA : (((c >>> 18) &&& 0x07) ||| 0xF0) - 0xF0 = c / 0x40000 % 0x08 := by
      rw [e1, shr18, andMask07]
    have hB : (((c >>> 12) &&& 0x3F) ||| 0x80) - 0x80 = c / 0x1000 % 0x40 := by
      rw [f1, shr12, andMask3F]
    have hC : (((c >>> 6) &&& 0x3F) ||| 0x80) - 0x80 = c / 0x40 % 0x40 := by
      rw [g1, shr6, andMask3F]
    have hD : ((c &&& 0x3F) ||| 0x80) - 0x80 = c % 0x40 := by
      rw [k1, andMask3F]
    rw [encodeChar_four h3]
    simp only [List.cons_append, List.nil_append, decodeChar]
    rw [if_neg (by omega : ¬ (((c >>> 18) &&& 0x07) ||| 0xF0) < 0x80),
      if_neg (by omega : ¬ (((c >>> 18) &&& 0x07) ||| 0xF0) < 0xC0),
      if_neg (by omega : ¬ (((c >>> 18) &&& 0x07) ||| 0xF0) < 0xE0),
      if_neg (by omega : ¬ (((c >>> 18) &&& 0x07) ||| 0xF0) < 0xF0),
      if_pos e3, f4, g4, k4]
    simp only [Bool.and_self, if_true]
    have hdiv1 : c / 0x40 / 0x40 = c / 0x1000 := by
      rw [Nat.div_div_eq_div_mul]
    have hdiv2 : c / 0x1000 / 0x40 = c / 0x40000 := by
      rw [Nat.div_div_eq_div_mul]
    simp only [utf8Len, if_neg h1, if_neg h2, if_neg h3, Option.some.injEq,
      Prod.mk.injEq, and_true]
    omega

/-! ### Encoded strings -/

/-- All scalars of a buffer are valid (the invariant of a Rust `&str`). -/
def ValidStr (cs : List Nat) : Prop := ∀ c ∈ cs, ValidScalar c

instance (cs : List Nat) : Decidable (ValidStr cs) := by
  unfold ValidStr; infer_instance

theorem encodeStr_nil : encodeStr [] = [] := rfl

theorem encodeStr_cons (c : Nat) (cs : List Nat) :
    encodeStr (c :: cs) = encodeChar c ++ encodeStr cs := by
  simp [encodeStr]

theorem encodeStr_append (a b : List Nat) :
    encodeStr (a ++ b) = encodeStr a ++ encodeStr b := by
  simp [encodeStr]

theorem encodeStr_eq_nil_iff (cs : List Nat) : encodeStr cs = [] ↔ cs = [] := by
  constructor
  · intro h
    cases cs with
    | nil => rfl
    | cons c cs =>
      rw [encodeStr_cons] at h
      rcases List.append_eq_nil.mp h with ⟨h1, -⟩
      exact absurd h1 (encodeChar_ne_nil c)
  · intro h; subst h; rfl

theorem length_encodeStr_take_le (cs : List Nat) (k : Nat) :
    (encodeStr (cs.take k)).length ≤ (encodeStr cs).length := by
  conv_rhs => rw [← List.take_append_drop k cs]
  rw [encodeStr_append, List.length_append]
  omega

theorem decodeChar_encodeStr_cons {c : Nat} (hc : c < 0x110000) (cs : List Nat) :
    decodeChar (encodeStr (c :: cs)) = some (c, utf8Len c) := by
  rw [encodeStr_cons]
  exact decodeChar_encodeChar c hc (encodeStr cs)

theorem drop_encodeStr_cons (c : Nat) (cs : List Nat) :
    (encodeStr (c :: cs)).drop (utf8Len c) = encodeStr cs := by
  rw [encodeStr_cons, ← length_encodeChar, List.drop_left]

theorem take_encodeStr_cons (c : Nat) (cs : List Nat) :
    (encodeStr (c :: cs)).take (utf8Len c) = encodeChar c := by
  rw [encodeStr_cons, ← length_encodeChar, List.take_left]

/-! ### Boundaries -/

theorem charBoundary_zero (cs : List Nat) : CharBoundary cs 0 :=
  ⟨0, Nat.zero_le _, by simp [encodeStr_nil]⟩

theorem charBoundary_len (cs : List Nat) : CharBoundary cs (encodeStr cs).length :=
  ⟨cs.length, le_refl _, by rw [List.take_length]⟩

theorem charBoundary_cons (c : Nat) (cs : List Nat) (i : Nat) :
    CharBoundary (c :: cs) i ↔
      i = 0 ∨ (utf8Len c ≤ i ∧ CharBoundary cs (i - utf8Len c)) := by
  constructor
  · rintro ⟨k, hk, rfl⟩
    cases k with
    | zero => left; simp [encodeStr_nil]
    | succ k2 =>
      right
      rw [List.take_succ_cons, encodeStr_cons, List.length_append, length_encodeChar]
      refine ⟨Nat.le_add_right _ _, k2, ?_, ?_⟩
      · simpa using hk
      · omega
  · rintro (rfl | ⟨hle, k, hk, hkk⟩)
    · exact charBoundary_zero _
    · refine ⟨k + 1, by simpa using hk, ?_⟩
      rw [List.take_succ_cons, encodeStr_cons, List.length_append, length_encodeChar]
      omega

theorem getD_mem {l : List Nat} {j : Nat} (h : j < l.length) : l.getD j 0 ∈ l := by
  rw [List.getD_eq_getElem?_getD, List.getElem?_eq_getElem h]
  exact List.getElem_mem h

theorem byteAt_append_left {a b : List Nat} {i : Nat} (h : i < a.length) :
    byteAt (a ++ b) i = byteAt a i := by
  unfold byteAt
  rw [List.getD_eq_getElem?_getD, List.getD_eq_getElem?_getD,
    List.getElem?_append_left h]

theorem byteAt_append_right {a b : List Nat} {i : Nat} (h : a.length ≤ i) :
    byteAt (a ++ b) i = byteAt b (i - a.length) := by
  unfold byteAt
  rw [List.getD_eq_getElem?_getD, List.getD_eq_getElem?_getD,
    List.getElem?_append_right h]

theorem charBoundary_iff_byteBoundary (cs : List Nat) (hv : ValidStr cs) (i : Nat) :
    CharBoundary cs i ↔ ByteBoundary (encodeStr cs) i := by
  induction cs generalizing i with
  | nil =>
    unfold CharBoundary ByteBoundary
    simp [encodeStr_nil]
    omega
  | cons c cs ih =>
    have hv2 : ValidStr cs := fun x hx => hv x (List.mem_cons_of_mem _ hx)
    have ihc := ih hv2
    obtain ⟨b, t, hE, hb, ht⟩ := encodeChar_struct c
    have hL : (encodeChar c).length = utf8Len c := length_encodeChar c
    have hLpos : 0 < utf8Len c := utf8Len_pos c
    rw [charBoundary_cons]
    rcases Nat.lt_trichotomy i (utf8Len c) with hi | hi | hi
    · -- i below the first character's byte length
      rcases Nat.eq_zero_or_pos i with rfl | hipos
      · -- i = 0 : both sides hold
        simp only [true_or, true_iff]
        refine ⟨?_, Or.inr ?_⟩
        · rw [encodeStr_cons, List.length_append]
          omega
        · rw [encodeStr_cons, byteAt_append_left (by omega), hE]
          simpa using hb
      · -- 0 < i < utf8Len c : both sides fail
        constructor
        · rintro (rfl | ⟨hle, -⟩) <;> omega
        · rintro ⟨-, hbb⟩
          rcases hbb with heq | hcont
          · rw [encodeStr_cons, List.length_append] at heq
            have := length_encodeStr_take_le cs cs.length
            omega
          · rw [encodeStr_cons, byteAt_append_left (by omega), hE] at hcont
            unfold byteAt at hcont
            have hmem : (b :: t).getD i 0 ∈ t := by
              cases i with
              | zero => omega
              | succ j =>
                rw [List.getD_cons_succ]
                apply getD_mem
                have : (b :: t).length = utf8Len c := by rw [← hE, hL]
                simp at this
                omega
            rw [ht _ hmem] at hcont
            simp at hcont
    · -- i = utf8Len c
      subst hi
      simp only [le_refl, true_and, Nat.sub_self]
      constructor
      · intro _
        rw [encodeStr_cons]
        constructor
        · rw [List.length_append]; omega
        rcases (ihc 0).mp (charBoundary_zero cs) with ⟨-, h0⟩
        rcases h0 with h0 | h0
        · left
          rw [List.length_append, hL]
          omega
        · right
          rw [byteAt_append_right (by omega), hL, Nat.sub_self]
          exact h0
      · intro _
        exact Or.inr (charBoundary_zero cs)
    · -- i above the first character
      have hle : utf8Len c ≤ i := le_of_lt hi
      have hiff : ByteBoundary (encodeStr (c :: cs)) i ↔
          ByteBoundary (encodeStr cs) (i - utf8Len c) := by
        unfold ByteBoundary
        rw [encodeStr_cons, List.length_append, hL]
        constructor
        · rintro ⟨h1, h2⟩
          refine ⟨by omega, ?_⟩
          rcases h2 with h2 | h2
          · left; omega
          · right
            rwa [byteAt_append_right (by omega), hL] at h2
        · rintro ⟨h1, h2⟩
          refine ⟨by omega, ?_⟩
          rcases h2 with h2 | h2
          · left; omega
          · right
            rwa [byteAt_append_right (by omega), hL]
      rw [hiff, ← ihc]
      constructor
      · rintro (rfl | ⟨-, h⟩)
        · omega
        · exact h
      · intro h
        exact Or.inr ⟨hle, h⟩

theorem charBoundary_of_append {pre post cs : List Nat} {i : Nat}
    (h : cs = pre ++ post) (hi : i = (encodeStr pre).length) : CharBoundary cs i := by
  refine ⟨pre.length, ?_, ?_⟩
  · subst h; simp
  · subst h; rw [List.take_left]; exact hi

/-! ### The code-point boundary scans -/

theorem seekLeft_le (s : List Nat) (i : Nat) : seek_utf8_cp_start_left s i ≤ i := by
  induction i with
  | zero => exact le_refl _
  | succ j ih =>
    unfold seek_utf8_cp_start_left
    split_ifs with h
    · omega
    · exact le_refl _

theorem seekLeft_stops (s : List Nat) (i : Nat) :
    seek_utf8_cp_start_left s i = 0 ∨
      isCont (byteAt s (seek_utf8_cp_start_left s i)) = false := by
  induction i with
  | zero => left; rfl
  | succ j ih =>
    unfold seek_utf8_cp_start_left
    split_ifs with h
    · exact ih
    · right
      unfold byteAt
      simpa using h

theorem head_encodeStr_not_cont (cs : List Nat) (hcs : cs ≠ []) :
    isCont (byteAt (encodeStr cs) 0) = false := by
  cases cs with
  | nil => exact absurd rfl hcs
  | cons c cs =>
    obtain ⟨b, t, hE, hb, ht⟩ := encodeChar_struct c
    rw [encodeStr_cons, hE]
    simpa [byteAt] using hb

theorem seekLeft_boundary (cs : List Nat) (i : Nat)
    (h : i ≤ (encodeStr cs).length) :
    ByteBoundary (encodeStr cs) (seek_utf8_cp_start_left (encodeStr cs) i) := by
  have hle := seekLeft_le (encodeStr cs) i
  rcases seekLeft_stops (encodeStr cs) i with h0 | hc
  · rw [h0]
    refine ⟨Nat.zero_le _, ?_⟩
    rcases Nat.eq_zero_or_pos (encodeStr cs).length with hz | hp
    · left; omega
    · right
      apply head_encodeStr_not_cont
      intro hnil
      rw [hnil, encodeStr_nil] at hp
      simp at hp
  · exact ⟨by omega, Or.inr hc⟩

theorem seekRightAux_props (s : List Nat) :
    ∀ fuel i, i ≤ s.length → s.length - i ≤ fuel →
      i ≤ seekRightAux fuel s i ∧ ByteBoundary s (seekRightAux fuel s i) := by
  intro fuel
  induction fuel with
  | zero =>
    intro i h1 h2
    have hi : i = s.length := by omega
    exact ⟨le_refl _, le_of_eq hi, Or.inl hi⟩
  | succ f ih =>
    intro i h1 h2
    unfold seekRightAux
    split_ifs with h
    · obtain ⟨hc1, -⟩ := h
      obtain ⟨a1, a2⟩ := ih (i+1) (by omega) (by omega)
      exact ⟨by omega, a2⟩
    · refine ⟨le_refl _, h1, ?_⟩
      rcases Nat.lt_or_ge i s.length with hlt | hge
      · right
        have hnc : ¬ isCont (s.getD i 0) = true := fun hc => h ⟨hlt, hc⟩
        unfold byteAt
        simpa using hnc
      · left; omega

theorem seekRight_props (s : List Nat) (i : Nat) (h : i ≤ s.length) :
    i ≤ seek_utf8_cp_start_right s i ∧ ByteBoundary s (seek_utf8_cp_start_right s i) :=
  seekRightAux_props s (s.length - i) i h (le_refl _)

/-! ### The cursor invariant -/

/-- The cursor invariant of section 3 of the spec: the cursor borrows the
encoded buffer, its offset is in range, and the offset is on a code-point
boundary. -/
def Inv (cs : List Nat) (c : StrCursor) : Prop :=
  c.s = encodeStr cs ∧ c.pos ≤ c.s.length ∧ CharBoundary cs c.pos

theorem inv_new_at_start (cs : List Nat) (ptr : Nat) :
    Inv cs (new_at_start ptr (encodeStr cs)) :=
  ⟨rfl, Nat.zero_le _, charBoundary_zero cs⟩

theorem inv_new_at_end (cs : List Nat) (ptr : Nat) :
    Inv cs (new_at_end ptr (encodeStr cs)) :=
  ⟨rfl, le_refl _, charBoundary_len cs⟩

theorem inv_of_byteBoundary {cs : List Nat} (hv : ValidStr cs) {ptr i : Nat}
    (h : ByteBoundary (encodeStr cs) i) : Inv cs ⟨ptr, encodeStr cs, i⟩ :=
  ⟨rfl, h.1, (charBoundary_iff_byteBoundary cs hv i).mpr h⟩

theorem inv_new_at_cp_left {cs : List Nat} (hv : ValidStr cs) (ptr p : Nat)
    (hp : p ≤ (encodeStr cs).length) :
    Inv cs (new_at_cp_left_of_byte_pos ptr (encodeStr cs) p) :=
  inv_of_byteBoundary hv (seekLeft_boundary cs p hp)

theorem inv_new_at_cp_right {cs : List Nat} (hv : ValidStr cs) (ptr p : Nat)
    (hp : p ≤ (encodeStr cs).length) :
    Inv cs (new_at_cp_right_of_byte_pos ptr (encodeStr cs) p) :=
  inv_of_byteBoundary hv (seekRight_props (encodeStr cs) p hp).2

theorem at_prev_cp_none_iff (c : StrCursor) : at_prev_cp c = none ↔ c.pos = 0 := by
  unfold at_prev_cp try_seek_left_cp
  split_ifs with h <;> simp [h]

theorem at_next_cp_none_iff (c : StrCursor) : at_next_cp c = none ↔ c.pos = c.s.length := by
  unfold at_next_cp try_seek_right_cp
  split_ifs with h <;> simp [h]

theorem at_prev_cp_some {cs : List Nat} (hv : ValidStr cs) {c c2 : StrCursor}
    (h : Inv cs c) (hs : at_prev_cp c = some c2) : Inv cs c2 ∧ c2.pos < c.pos := by
  obtain ⟨hseq, hlen, -⟩ := h
  unfold at_prev_cp try_seek_left_cp at hs
  split_ifs at hs with h0
  simp only [Option.some.injEq] at hs
  subst hs
  have hp1 : c.pos - 1 ≤ (encodeStr cs).length := by rw [hseq] at hlen; omega
  have hb2 : ByteBoundary (encodeStr cs) (seek_utf8_cp_start_left (encodeStr cs) (c.pos - 1)) :=
    seekLeft_boundary cs (c.pos - 1) hp1
  have hle := seekLeft_le (encodeStr cs) (c.pos - 1)
  refine ⟨⟨hseq, ?_, ?_⟩, ?_⟩
  · simp only [hseq]
    exact hb2.1
  · simp only [hseq]
    exact (charBoundary_iff_byteBoundary cs hv _).mpr hb2
  · simp only [hseq]
    omega

theorem at_next_cp_some {cs : List Nat} (hv : ValidStr cs) {c c2 : StrCursor}
    (h : Inv cs c) (hs : at_next_cp c = some c2) :
    Inv cs c2 ∧ c.pos < c2.pos := by
  obtain ⟨hseq, hlen, -⟩ := h
  unfold at_next_cp try_seek_right_cp at hs
  split_ifs at hs with h0
  simp only [Option.some.injEq] at hs
  subst hs
  have hp1 : c.pos + 1 ≤ (encodeStr cs).length := by
    rw [hseq] at hlen h0
    omega
  obtain ⟨ha, hb2⟩ := seekRight_props (encodeStr cs) (c.pos + 1) hp1
  refine ⟨⟨hseq, ?_, ?_⟩, ?_⟩
  · simp only [hseq]
    exact hb2.1
  · simp only [hseq]
    exact (charBoundary_iff_byteBoundary cs hv _).mpr hb2
  · simp only [hseq]
    omega

/-! ### The oracle on encoded strings -/

theorem marksLen_nil (fuel : Nat) : marksLen fuel [] = 0 := by
  cases fuel <;> rfl

theorem marksLen_encodeStr (cs : List Nat) (hv : ValidStr cs) :
    ∀ fuel, (encodeStr cs).length ≤ fuel →
      marksLen fuel (encodeStr cs) = (encodeStr (cs.takeWhile isMark)).length := by
  induction cs with
  | nil =>
    intro fuel _
    rw [encodeStr_nil, marksLen_nil]
    rfl
  | cons c cs ih =>
    intro fuel hfuel
    have hvc : ValidScalar c := hv c (List.mem_cons_self _ _)
    have hv2 : ValidStr cs := fun x hx => hv x (List.mem_cons_of_mem _ hx)
    have hlen : (encodeStr (c :: cs)).length = utf8Len c + (encodeStr cs).length := by
      rw [encodeStr_cons, List.length_append, length_encodeChar]
    have hLpos := utf8Len_pos c
    cases fuel with
    | zero => omega
    | succ f =>
      simp only [marksLen, decodeChar_encodeStr_cons hvc.1, drop_encodeStr_cons]
      by_cases hm : isMark c
      · rw [if_pos hm, ih hv2 f (by omega), List.takeWhile_cons_of_pos hm,
          encodeStr_cons, List.length_append, length_encodeChar]
      · rw [if_neg hm, List.takeWhile_cons_of_neg hm, encodeStr_nil]
        rfl

theorem grFirst_nil : grFirst [] = none := rfl

theorem encodeStr_cluster_split (c : Nat) (cs : List Nat) :
    encodeStr (c :: cs) =
      encodeStr (c :: cs.takeWhile isMark) ++ encodeStr (cs.dropWhile isMark) := by
  rw [← encodeStr_append]
  simp [List.takeWhile_append_dropWhile]

theorem grFirst_encodeStr (c : Nat) (cs : List Nat) (hv : ValidStr (c :: cs)) :
    grFirst (encodeStr (c :: cs)) =
      some (encodeStr (c :: cs.takeWhile isMark), encodeStr (cs.dropWhile isMark)) := by
  have hvc : ValidScalar c := hv c (List.mem_cons_self _ _)
  have hv2 : ValidStr cs := fun x hx => hv x (List.mem_cons_of_mem _ hx)
  have hlen : (encodeStr (c :: cs)).length = utf8Len c + (encodeStr cs).length := by
    rw [encodeStr_cons, List.length_append, length_encodeChar]
  simp only [grFirst, grFirstLen, decodeChar_encodeStr_cons hvc.1, drop_encodeStr_cons]
  rw [marksLen_encodeStr cs hv2 _ (by omega)]
  have hn : utf8Len c + (encodeStr (cs.takeWhile isMark)).length =
      (encodeStr (c :: cs.takeWhile isMark)).length := by
    rw [encodeStr_cons, List.length_append, length_encodeChar]
  rw [hn]
  conv_lhs => rw [encodeStr_cluster_split c cs]
  rw [List.take_left, List.drop_left]

theorem graphemesChars_nil : graphemesChars [] = [] := by
  rw [graphemesChars]

theorem graphemesChars_cons (c : Nat) (cs : List Nat) :
    graphemesChars (c :: cs) =
      (c :: cs.takeWhile isMark) :: graphemesChars (cs.dropWhile isMark) := by
  rw [graphemesChars]

theorem graphemesChars_flatten (cs : List Nat) : (graphemesChars cs).flatten = cs := by
  induction cs using graphemesChars.induct with
  | case1 => rw [graphemesChars_nil]; rfl
  | case2 c rest ih =>
    rw [graphemesChars_cons, List.flatten_cons, ih]
    simp [List.takeWhile_append_dropWhile]

theorem graphemesChars_ne_nil (cs : List Nat) :
    ∀ g ∈ graphemesChars cs, g ≠ [] := by
  induction cs using graphemesChars.induct with
  | case1 =>
    rw [graphemesChars_nil]
    intro g hg
    simp at hg
  | case2 c rest ih =>
    rw [graphemesChars_cons]
    intro g hg
    rcases List.mem_cons.mp hg with rfl | hg2
    · simp
    · exact ih g hg2

theorem graphemesAux_encodeStr :
    ∀ fuel (cs : List Nat), ValidStr cs → (encodeStr cs).length ≤ fuel →
      graphemesAux fuel (encodeStr cs) = (graphemesChars cs).map encodeStr := by
  intro fuel
  induction fuel with
  | zero =>
    intro cs hv hf
    have h0 : encodeStr cs = [] := List.length_eq_zero.mp (by omega)
    have h1 : cs = [] := (encodeStr_eq_nil_iff cs).mp h0
    subst h1
    rw [encodeStr_nil, graphemesChars_nil]
    rfl
  | succ f ih =>
    intro cs hv hf
    cases cs with
    | nil =>
      rw [encodeStr_nil, graphemesChars_nil]
      rfl
    | cons c cs2 =>
      have hv2 : ValidStr (cs2.dropWhile isMark) := fun x hx =>
        hv x (List.mem_cons_of_mem _ ((List.dropWhile_sublist isMark).subset hx))
      have hsplit := encodeStr_cluster_split c cs2
      have hclen : 0 < (encodeStr (c :: cs2.takeWhile isMark)).length := by
        rw [encodeStr_cons, List.length_append, length_encodeChar]
        have := utf8Len_pos c
        omega
      have hflen : (encodeStr (cs2.dropWhile isMark)).length ≤ f := by
        have h1 : (encodeStr (c :: cs2)).length =
            (encodeStr (c :: cs2.takeWhile isMark)).length +
              (encodeStr (cs2.dropWhile isMark)).length := by
          rw [hsplit, List.length_append]
        omega
      simp only [graphemesAux, grFirst_encodeStr c cs2 hv]
      rw [ih (cs2.dropWhile isMark) hv2 hflen, graphemesChars_cons]
      rfl

theorem graphemes_encodeStr (cs : List Nat) (hv : ValidStr cs) :
    graphemes (encodeStr cs) = (graphemesChars cs).map encodeStr :=
  graphemesAux_encodeStr _ cs hv (le_refl _)

/-! ### Grapheme-level movement -/

theorem slice_after_inv {cs : List Nat} {c : StrCursor} (h : Inv cs c) :
    ∃ k, k ≤ cs.length ∧ c.pos = (encodeStr (cs.take k)).length ∧
      slice_after c = encodeStr (cs.drop k) ∧
      slice_before c = encodeStr (cs.take k) := by
  obtain ⟨hseq, hlen, k, hk, hpos⟩ := h
  have hsplit : encodeStr cs = encodeStr (cs.take k) ++ encodeStr (cs.drop k) := by
    rw [← encodeStr_append, List.take_append_drop]
  refine ⟨k, hk, hpos, ?_, ?_⟩
  · unfold slice_after
    rw [hseq, hpos, hsplit, List.drop_left]
  · unfold slice_before
    rw [hseq, hpos, hsplit, List.take_left]

theorem at_next_spec {cs : List Nat} (hv : ValidStr cs) {c : StrCursor} (h : Inv cs c) :
    (at_next c = none ↔ c.pos = c.s.length) ∧
      ∀ c2, at_next c = some c2 →
        Inv cs c2 ∧ c.pos < c2.pos ∧ c2.s = c.s ∧ c2.ptr = c.ptr := by
  obtain ⟨k, hk, hpos, hafter, -⟩ := slice_after_inv h
  obtain ⟨hseq, hlen, -⟩ := h
  unfold at_next try_seek_right_gr
  rcases hdk : cs.drop k with - | ⟨c0, rest⟩
  · rw [hdk, encodeStr_nil] at hafter
    rw [hafter, grFirst_nil]
    have htk : cs.take k = cs := List.take_of_length_le (by
      have := List.drop_eq_nil_iff.mp hdk
      omega)
    constructor
    · simp only [true_iff]
      rw [hpos, htk, hseq]
    · intro c2 hc2
      simp at hc2
  · have hvd : ValidStr (c0 :: rest) := by
      rw [← hdk]
      exact fun x hx => hv x ((List.drop_sublist k cs).subset hx)
    rw [hdk] at hafter
    rw [hafter, grFirst_encodeStr c0 rest hvd]
    have hclen : 0 < (encodeStr (c0 :: rest.takeWhile isMark)).length := by
      rw [encodeStr_cons, List.length_append, length_encodeChar]
      have := utf8Len_pos c0
      omega
    have hcs2 : cs = (cs.take k ++ (c0 :: rest.takeWhile isMark)) ++
        rest.dropWhile isMark := by
      conv_lhs => rw [← List.take_append_drop k cs, hdk]
      rw [List.append_assoc]
      congr 1
      simp [List.takeWhile_append_dropWhile]
    have hposlen : c.pos + (encodeStr (c0 :: rest.takeWhile isMark)).length =
        (encodeStr (cs.take k ++ (c0 :: rest.takeWhile isMark))).length := by
      rw [encodeStr_append, List.length_append, hpos]
    constructor
    · constructor
      · intro hx
        simp at hx
      · intro hx
        exfalso
        rw [hseq] at hx
        have h1 : (encodeStr cs).length =
            (encodeStr (cs.take k)).length + (encodeStr (cs.drop k)).length := by
          conv_lhs => rw [← List.take_append_drop k cs]
          rw [encodeStr_append, List.length_append]
        have h2 : 0 < (encodeStr (cs.drop k)).length := by
          rw [hdk, encodeStr_cons, List.length_append, length_encodeChar]
          have := utf8Len_pos c0
          omega
        omega
    · intro c2 hc2
      simp only [Option.some.injEq] at hc2
      subst hc2
      refine ⟨⟨hseq, ?_, ?_⟩, ?_, rfl, rfl⟩
      · show c.pos + (encodeStr (c0 :: rest.takeWhile isMark)).length ≤ c.s.length
        have hlen2 : (encodeStr cs).length =
            (encodeStr (cs.take k ++ (c0 :: rest.takeWhile isMark))).length +
              (encodeStr (rest.dropWhile isMark)).length := by
          conv_lhs => rw [hcs2]
          rw [encodeStr_append, List.length_append]
        rw [hseq, hposlen, hlen2]
        omega
      · exact charBoundary_of_append hcs2 hposlen
      · show c.pos < c.pos + (encodeStr (c0 :: rest.takeWhile isMark)).length
        omega

theorem at_prev_spec {cs : List Nat} (hv : ValidStr cs) {c : StrCursor} (h : Inv cs c) :
    (at_prev c = none ↔ c.pos = 0) ∧
      ∀ c2, at_prev c = some c2 →
        Inv cs c2 ∧ c2.pos < c.pos ∧ c2.s = c.s ∧ c2.ptr = c.ptr := by
  obtain ⟨k, hk, hpos, -, hbefore⟩ := slice_after_inv h
  obtain ⟨hseq, hlen, -⟩ := h
  rw [hseq] at hlen
  have hvpre : ValidStr (cs.take k) := fun x hx =>
    hv x ((List.take_sublist k cs).subset hx)
  have hgr : graphemes (slice_before c) = (graphemesChars (cs.take k)).map encodeStr := by
    rw [hbefore, graphemes_encodeStr _ hvpre]
  rcases hgc : (graphemesChars (cs.take k)).getLast? with - | gc
  · have hstep : at_prev c = none := by
      unfold at_prev try_seek_left_gr
      rw [hgr, List.getLast?_map, hgc]
      rfl
    have hpre : cs.take k = [] := by
      rcases hcs : cs.take k with - | ⟨p, ps⟩
      · rfl
      · rw [hcs, graphemesChars_cons] at hgc
        simp at hgc
    refine ⟨?_, ?_⟩
    · rw [hstep]
      simp only [true_iff]
      rw [hpos, hpre, encodeStr_nil]
      rfl
    · intro c2 hc2
      rw [hstep] at hc2
      simp at hc2
  · have hstep : at_prev c = some { c with pos := c.pos - (encodeStr gc).length } := by
      unfold at_prev try_seek_left_gr
      rw [hgr, List.getLast?_map, hgc]
      rfl
    have hLne : graphemesChars (cs.take k) ≠ [] := by
      intro hnil
      rw [hnil] at hgc
      simp at hgc
    have hgl : (graphemesChars (cs.take k)).getLast hLne = gc := by
      have h2 := List.getLast?_eq_getLast (graphemesChars (cs.take k)) hLne
      rw [hgc] at h2
      exact ((Option.some.injEq _ _).mp h2).symm
    have hgcmem : gc ∈ graphemesChars (cs.take k) := hgl ▸ List.getLast_mem hLne
    have hgcne : gc ≠ [] := graphemesChars_ne_nil _ gc hgcmem
    have hdecomp : (graphemesChars (cs.take k)).dropLast ++ [gc] =
        graphemesChars (cs.take k) := by
      conv_rhs => rw [← List.dropLast_append_getLast hLne, hgl]
    have hpre : cs.take k = (graphemesChars (cs.take k)).dropLast.flatten ++ gc := by
      conv_lhs => rw [← graphemesChars_flatten (cs.take k), ← hdecomp]
      rw [List.flatten_append]
      simp
    have hcs3 : cs = (graphemesChars (cs.take k)).dropLast.flatten ++
        (gc ++ cs.drop k) := by
      rw [← List.append_assoc, ← hpre]
      exact (List.take_append_drop k cs).symm
    have hposdecomp : c.pos =
        (encodeStr ((graphemesChars (cs.take k)).dropLast.flatten)).length +
          (encodeStr gc).length := by
      rw [hpos]
      conv_lhs => rw [hpre]
      rw [encodeStr_append, List.length_append]
    have hgclen : 0 < (encodeStr gc).length := by
      rcases hgcnil : encodeStr gc with - | -
      · exact absurd ((encodeStr_eq_nil_iff gc).mp hgcnil) hgcne
      · simp
    refine ⟨?_, ?_⟩
    · rw [hstep]
      constructor
      · intro hx
        simp at hx
      · intro hx
        exfalso
        omega
    · intro c2 hc2
      rw [hstep] at hc2
      simp only [Option.some.injEq] at hc2
      subst hc2
      refine ⟨⟨hseq, ?_, ?_⟩, ?_, rfl, rfl⟩
      · show c.pos - (encodeStr gc).length ≤ c.s.length
        rw [hseq]
        omega
      · show CharBoundary cs (c.pos - (encodeStr gc).length)
        apply charBoundary_of_append hcs3
        omega
      · show c.pos - (encodeStr gc).length < c.pos
        omega

/-! ### Constructors establish the invariant; movements preserve it -/

theorem inv_new_at_left {cs : List Nat} (hv : ValidStr cs) (ptr p : Nat)
    (hp : p ≤ (encodeStr cs).length) :
    Inv cs (new_at_left_of_byte_pos ptr (encodeStr cs) p) := by
  have hcur := inv_new_at_cp_left hv ptr p hp
  unfold new_at_left_of_byte_pos
  rcases hap : at_prev (new_at_cp_left_of_byte_pos ptr (encodeStr cs) p) with - | prev
  · exact hcur
  · have hprev := (((at_prev_spec hv hcur).2) prev hap).1
    rcases haf : after prev with - | g
    · simp only [haf]
      exact hcur
    · simp only [haf]
      split_ifs with hcond
      · exact hprev
      · exact hcur

theorem inv_new_at_right {cs : List Nat} (hv : ValidStr cs) (ptr p : Nat)
    (hp : p ≤ (encodeStr cs).length) :
    Inv cs (new_at_right_of_byte_pos ptr (encodeStr cs) p) := by
  have hcur := inv_new_at_left hv ptr p hp
  unfold new_at_right_of_byte_pos
  split_ifs with hcond
  · exact hcur
  · rcases han : at_next (new_at_left_of_byte_pos ptr (encodeStr cs) p) with - | c2
    · exact hcur
    · simpa [han] using (((at_next_spec hv hcur).2) c2 han).1

theorem inv_construct {cs : List Nat} (hv : ValidStr cs) (ptr : Nat) (k : Ctor)
    (hk : ctorArg k ≤ (encodeStr cs).length) :
    Inv cs (construct ptr (encodeStr cs) k) := by
  cases k with
  | start => exact inv_new_at_start cs ptr
  | stop => exact inv_new_at_end cs ptr
  | cpLeft p => exact inv_new_at_cp_left hv ptr p hk
  | cpRight p => exact inv_new_at_cp_right hv ptr p hk
  | grLeft p => exact inv_new_at_left hv ptr p hk
  | grRight p => exact inv_new_at_right hv ptr p hk

theorem inv_applyMove {cs : List Nat} (hv : ValidStr cs) {c : StrCursor}
    (h : Inv cs c) (m : Move) : Inv cs (applyMove c m) := by
  cases m with
  | prevGr =>
    unfold applyMove
    rcases hs : at_prev c with - | c2
    · simpa [hs] using h
    · simpa [hs] using (((at_prev_spec hv h).2) c2 hs).1
  | nextGr =>
    unfold applyMove
    rcases hs : at_next c with - | c2
    · simpa [hs] using h
    · simpa [hs] using (((at_next_spec hv h).2) c2 hs).1
  | prevCp =>
    unfold applyMove
    rcases hs : at_prev_cp c with - | c2
    · simpa [hs] using h
    · simpa [hs] using (at_prev_cp_some hv h hs).1
  | nextCp =>
    unfold applyMove
    rcases hs : at_next_cp c with - | c2
    · simpa [hs] using h
    · simpa [hs] using (at_next_cp_some hv h hs).1

theorem inv_applyMoves {cs : List Nat} (hv : ValidStr cs) :
    ∀ (ms : List Move) (c : StrCursor), Inv cs c → Inv cs (applyMoves c ms) := by
  intro ms
  induction ms with
  | nil => intro c h; exact h
  | cons m ms ih =>
    intro c h
    exact ih _ (inv_applyMove hv h m)

/-! ### Iterated stepping -/

theorem iterOpt_next_end {cs : List Nat} (hv : ValidStr cs) :
    ∀ (n : Nat) (c : StrCursor), Inv cs c → c.s.length - c.pos ≤ n →
      (iterOpt at_next n c).pos = (encodeStr cs).length := by
  intro n
  induction n with
  | zero =>
    intro c hc hn
    obtain ⟨hs, hl, -⟩ := hc
    show c.pos = (encodeStr cs).length
    rw [hs] at hl hn
    omega
  | succ n ih =>
    intro c hc hn
    unfold iterOpt
    rcases hs : at_next c with - | c2
    · simp only [hs]
      have h1 := ((at_next_spec hv hc).1).mp hs
      rw [h1, hc.1]
    · simp only [hs]
      obtain ⟨hinv2, hlt, hseq2, -⟩ := ((at_next_spec hv hc).2) c2 hs
      exact ih c2 hinv2 (by rw [hseq2]; omega)

theorem iterOpt_prev_start {cs : List Nat} (hv : ValidStr cs) :
    ∀ (n : Nat) (c : StrCursor), Inv cs c → c.pos ≤ n →
      (iterOpt at_prev n c).pos = 0 := by
  intro n
  induction n with
  | zero =>
    intro c hc hn
    show c.pos = 0
    omega
  | succ n ih =>
    intro c hc hn
    unfold iterOpt
    rcases hs : at_prev c with - | c2
    · simp only [hs]
      exact ((at_prev_spec hv hc).1).mp hs
    · simp only [hs]
      obtain ⟨hinv2, hlt, -, -⟩ := ((at_prev_spec hv hc).2) c2 hs
      exact ih c2 hinv2 (by omega)

/-! ### Comparison helpers -/

theorem charCmp_eq_iff (a b : Nat) : charCmp a b = Ordering.eq ↔ a = b := by
  unfold charCmp
  split_ifs with h1 h2
  · constructor
    · intro hx; simp at hx
    · intro hx; omega
  · simp [h2]
  · constructor
    · intro hx; simp at hx
    · intro hx; omega

theorem charCmp_swap (a b : Nat) : (charCmp a b).swap = charCmp b a := by
  unfold charCmp
  rcases Nat.lt_trichotomy a b with h | h | h
  · rw [if_pos h, if_neg (by omega), if_neg (by omega)]
    rfl
  · rw [if_neg (by omega), if_pos h, if_neg (by omega), if_pos h.symm]
    rfl
  · rw [if_neg (by omega), if_neg (by omega), if_pos h]
    rfl

theorem strCompare_swap : ∀ (a b : List Nat), (strCompare a b).swap = strCompare b a := by
  intro a
  induction a with
  | nil =>
    intro b
    cases b <;> rfl
  | cons x xs ih =>
    intro b
    cases b with
    | nil => rfl
    | cons y ys =>
      have hsw := charCmp_swap x y
      simp only [strCompare]
      rcases h : charCmp x y with - | - | - <;> rw [h] at hsw <;> rw [← hsw]
      · rfl
      · exact ih ys
      · rfl

theorem natBeq_comm (a b : Nat) : (a == b) = (b == a) := by
  by_cases h : a = b
  · subst h; rfl
  · have h2 : ¬ b = a := fun hh => h hh.symm
    simp [h, h2]

theorem listBeq_comm (a b : List Nat) : (a == b) = (b == a) := by
  by_cases h : a = b
  · subst h; rfl
  · have h2 : ¬ b = a := fun hh => h hh.symm
    simp [h, h2]

theorem encode_utf8_raw_four (c : Nat) :
    encode_utf8_raw c 4 = some (encodeChar c) := by
  unfold encodeChar
  rcases h : encode_utf8_raw c 4 with - | bs
  · exfalso
    revert h
    unfold encode_utf8_raw
    split_ifs with h1 h2 h3 h4 <;> intro h <;> first | omega | simp at h
  · rfl

theorem base_char_encodeChar {c : Nat} (hc : c < 0x110000) :
    Gc.base_char (encodeChar c) = c := by
  unfold Gc.base_char
  have h := decodeChar_encodeChar c hc []
  rw [List.append_nil] at h
  rw [h]
  rfl

theorem has_marks_encodeChar {c : Nat} (hc : c < 0x110000) :
    Gc.has_marks (encodeChar c) = false := by
  unfold Gc.has_marks
  rw [base_char_encodeChar hc, length_encodeChar]
  simp

/-! ### The claims -/

/-- Claim C6: for every cursor, the text before the cursor concatenated with
the text after the cursor is the whole original buffer:
`slice_before ++ slice_after = slice_all`. -/
theorem slice_roundtrip (c : StrCursor) :
    slice_before c ++ slice_after c = slice_all c :=
  List.take_append_drop c.pos c.s

/-- Claim C4: a cursor built by any public constructor over a valid UTF-8
buffer and transformed by any sequence of safe movement operations has its
byte offset within `0 ≤ offset ≤ length` and on a code-point boundary (the
offset is the byte length of the encoding of a prefix of the buffer's
scalars, so it never falls inside a multi-byte encoding). -/
theorem cursor_offset_invariant (cs : List Nat) (hv : ValidStr cs) (ptr : Nat)
    (k : Ctor) (hk : ctorArg k ≤ (encodeStr cs).length) (ms : List Move) :
    (applyMoves (construct ptr (encodeStr cs) k) ms).pos ≤ (encodeStr cs).length ∧
      CharBoundary cs (applyMoves (construct ptr (encodeStr cs) k) ms).pos := by
  obtain ⟨hs, hl, hb⟩ := inv_applyMoves hv ms _ (inv_construct hv ptr k hk)
  rw [hs] at hl
  exact ⟨hl, hb⟩

/-- Witness for C4 at a concrete buffer, constructor and move sequence. -/
theorem cursor_offset_invariant_witness :
    (applyMoves (construct 7 (encodeStr [0x61, 0xE4]) (Ctor.cpLeft 3))
        [Move.nextGr, Move.prevCp]).pos ≤ (encodeStr [0x61, 0xE4]).length ∧
      CharBoundary [0x61, 0xE4]
        (applyMoves (construct 7 (encodeStr [0x61, 0xE4]) (Ctor.cpLeft 3))
          [Move.nextGr, Move.prevCp]).pos :=
  cursor_offset_invariant [0x61, 0xE4] (by decide) 7 (Ctor.cpLeft 3) (by decide)
    [Move.nextGr, Move.prevCp]

/-- Claim C5: grapheme stepping is monotone and terminates exactly at the
buffer edges: `at_next` fails exactly at the end and strictly increases the
position otherwise, `at_prev` fails exactly at the start and strictly
decreases it otherwise, and iterating `at_next` from `new_at_start`
(resp. `at_prev` from `new_at_end`) reaches the end (resp. the start). -/
theorem monotonic_stepping (cs : List Nat) (hv : ValidStr cs) (ptr : Nat) :
    (∀ c : StrCursor, Inv cs c →
        (at_next c = none ↔ c.pos = (encodeStr cs).length) ∧
        (∀ c2, at_next c = some c2 → c.pos < c2.pos ∧ c2.pos ≤ (encodeStr cs).length) ∧
        (at_prev c = none ↔ c.pos = 0) ∧
        (∀ c2, at_prev c = some c2 → c2.pos < c.pos)) ∧
      (iterOpt at_next (encodeStr cs).length (new_at_start ptr (encodeStr cs))).pos =
        (encodeStr cs).length ∧
      (iterOpt at_prev (encodeStr cs).length (new_at_end ptr (encodeStr cs))).pos = 0 := by
  refine ⟨?_, ?_, ?_⟩
  · intro c hc
    refine ⟨?_, ?_, ?_, ?_⟩
    · rw [(at_next_spec hv hc).1, hc.1]
    · intro c2 hs
      obtain ⟨hinv2, hlt, -, -⟩ := ((at_next_spec hv hc).2) c2 hs
      refine ⟨hlt, ?_⟩
      obtain ⟨hs2, hl2, -⟩ := hinv2
      rw [hs2] at hl2
      exact hl2
    · exact (at_prev_spec hv hc).1
    · intro c2 hs
      exact (((at_prev_spec hv hc).2) c2 hs).2.1
  · exact iterOpt_next_end hv _ _ (inv_new_at_start cs ptr) (by
      show (encodeStr cs).length - 0 ≤ (encodeStr cs).length
      omega)
  · exact iterOpt_prev_start hv _ _ (inv_new_at_end cs ptr) (le_refl _)

/-- Witness for C5: iterating the right-step from the start of a concrete
buffer ends exactly at the end of the buffer. -/
theorem monotonic_stepping_witness :
    (iterOpt at_next (encodeStr [0x61, 0x65, 0x308]).length
        (new_at_start 0 (encodeStr [0x61, 0x65, 0x308]))).pos =
      (encodeStr [0x61, 0x65, 0x308]).length :=
  (monotonic_stepping [0x61, 0x65, 0x308] (by decide) 0).2.1

/-- Claim C3: the in-place seek-to-previous-grapheme of `src/cursor.rs` uses
the leftward primitive — it computes the very position `at_prev` returns and
panics exactly at the start of the string — while the variant written in
`src/lib.rs` lines 183-188 calls the rightward primitive `try_seek_right_gr`:
on the buffer "ab" it steps right from the start instead of panicking, and
panics at the end instead of stepping left. -/
theorem seek_prev_contract :
    (∀ c : StrCursor, seek_prev c = at_prev c) ∧
    (∀ cs : List Nat, ValidStr cs → ∀ c : StrCursor, Inv cs c →
        (seek_prev c = none ↔ c.pos = 0)) ∧
    seek_prev (new_at_start 0 [0x61, 0x62]) = none ∧
    seek_prev_lib (new_at_start 0 [0x61, 0x62]) = some ⟨0, [0x61, 0x62], 1⟩ ∧
    seek_prev_lib (new_at_end 0 [0x61, 0x62]) = none := by
  refine ⟨fun c => rfl, ?_, by decide, by decide, by decide⟩
  intro cs hv c hc
  exact (at_prev_spec hv hc).1

/-- Witness for C3: the panic-iff-at-start clause at a concrete cursor. -/
theorem seek_prev_contract_witness :
    seek_prev (new_at_start 3 (encodeStr [0x61, 0x62])) = none ↔
      (new_at_start 3 (encodeStr [0x61, 0x62])).pos = 0 :=
  seek_prev_contract.2.1 [0x61, 0x62] (by decide) _ (inv_new_at_start [0x61, 0x62] 3)

/-- Claim C9: `slice_between` returns a result only when the two cursors
borrow the identical buffer — the same address and length — in which case it
is order-independent and spans from the lesser to the greater offset; for
cursors over two distinct buffers (different address), even with identical
contents, it returns `none`. -/
theorem slice_between_spec :
    (∀ a b : StrCursor, ∀ r, slice_between a b = some r →
        a.ptr = b.ptr ∧ a.s.length = b.s.length) ∧
    (∀ a b : StrCursor, a.ptr = b.ptr → a.s = b.s →
        slice_between a b = slice_between b a ∧
        slice_between a b =
          some ((a.s.take (max a.pos b.pos)).drop (min a.pos b.pos))) ∧
    (∀ a b : StrCursor, a.ptr ≠ b.ptr → slice_between a b = none) := by
  refine ⟨?_, ?_, ?_⟩
  · intro a b r h
    unfold slice_between str_eq_literal at h
    by_cases hc : ((a.ptr == b.ptr) && (a.s.length == b.s.length)) = true
    · simp only [Bool.and_eq_true, beq_iff_eq] at hc
      exact hc
    · exfalso
      have hfalse : ((a.ptr == b.ptr) && (a.s.length == b.s.length)) = false := by
        rcases hb : ((a.ptr == b.ptr) && (a.s.length == b.s.length)) with - | -
        · rfl
        · exact absurd hb hc
      rw [hfalse] at h
      simp at h
  · intro a b hp hs
    have hlit : str_eq_literal a.ptr a.s b.ptr b.s = true := by
      unfold str_eq_literal
      simp [hp, hs]
    have hlit2 : str_eq_literal b.ptr b.s a.ptr a.s = true := by
      unfold str_eq_literal
      simp [hp, hs]
    unfold slice_between
    rw [hlit, hlit2]
    simp only [Bool.not_true, Bool.false_eq_true, if_false]
    constructor
    · rw [hs, Nat.max_comm, Nat.min_comm]
    · trivial
  · intro a b hp
    unfold slice_between str_eq_literal
    have hb : (a.ptr == b.ptr) = false := by simp [hp]
    rw [hb]
    simp

/-- Witness for C9: identical buffer gives an order-independent slice. -/
theorem slice_between_spec_witness :
    slice_between ⟨5, [0x61, 0x62], 0⟩ ⟨5, [0x61, 0x62], 1⟩ =
        slice_between ⟨5, [0x61, 0x62], 1⟩ ⟨5, [0x61, 0x62], 0⟩ ∧
      slice_between ⟨5, [0x61, 0x62], 0⟩ ⟨5, [0x61, 0x62], 1⟩ =
        some (([0x61, 0x62].take (max 0 1)).drop (min 0 1)) :=
  slice_between_spec.2.1 ⟨5, [0x61, 0x62], 0⟩ ⟨5, [0x61, 0x62], 1⟩ rfl rfl

/-- Claim C7: `Gc::split_from` fails exactly on the empty fragment, and
otherwise returns a nonempty first cluster and a tail whose concatenation is
the input; `Gc::from_str` returns an optional — it succeeds exactly when the
whole fragment is a single grapheme cluster (the oracle's segmentation of
the fragment is the fragment itself as one cluster). -/
theorem split_from_spec (cs : List Nat) (hv : ValidStr cs) :
    (Gc.split_from (encodeStr cs) = none ↔ cs = []) ∧
    (∀ g t, Gc.split_from (encodeStr cs) = some (g, t) →
        g ++ t = encodeStr cs ∧ g ≠ []) ∧
    (∀ g, Gc.from_str (encodeStr cs) = some g ↔
        (g = encodeStr cs ∧ graphemes (encodeStr cs) = [encodeStr cs])) := by
  cases cs with
  | nil =>
    refine ⟨by simp [encodeStr_nil, Gc.split_from, grFirst_nil], ?_, ?_⟩
    · intro g t h
      rw [encodeStr_nil] at h
      exact absurd h (by simp [Gc.split_from, grFirst_nil])
    · intro g
      rw [encodeStr_nil]
      constructor
      · intro h
        exact absurd h (by simp [Gc.from_str, Gc.split_from, grFirst_nil])
      · rintro ⟨rfl, hg⟩
        exact absurd hg (by decide)
  | cons c cs2 =>
    have hgf := grFirst_encodeStr c cs2 hv
    have hsplit := encodeStr_cluster_split c cs2
    refine ⟨?_, ?_, ?_⟩
    · unfold Gc.split_from
      rw [hgf]
      simp
    · intro g t h
      unfold Gc.split_from at h
      rw [hgf] at h
      simp only [Option.some.injEq, Prod.mk.injEq] at h
      obtain ⟨rfl, rfl⟩ := h
      refine ⟨hsplit.symm, ?_⟩
      rw [ne_eq, encodeStr_eq_nil_iff]
      simp
    · intro g
      unfold Gc.from_str Gc.split_from
      simp only [hgf]
      rcases hdw : cs2.dropWhile isMark with - | ⟨d, ds⟩
      · rw [encodeStr_nil]
        have htw : cs2.takeWhile isMark = cs2 := by
          have h2 := List.takeWhile_append_dropWhile (p := isMark) (l := cs2)
          rw [hdw, List.append_nil] at h2
          exact h2
        have hgr : graphemes (encodeStr (c :: cs2)) = [encodeStr (c :: cs2)] := by
          rw [graphemes_encodeStr _ hv, graphemesChars_cons, hdw, graphemesChars_nil, htw]
          rfl
        rw [htw, hgr, if_pos (by simp : ([] : List Nat).length = 0)]
        simp only [Option.some.injEq]
        constructor
        · intro hh
          exact ⟨hh.symm, trivial⟩
        · rintro ⟨rfl, -⟩
          rfl
      · have hrne : ¬ (encodeStr (d :: ds)).length = 0 := by
          rw [List.length_eq_zero, encodeStr_eq_nil_iff]
          simp
        rw [if_neg hrne]
        constructor
        · intro hh
          simp at hh
        · rintro ⟨rfl, hgr⟩
          exfalso
          rw [graphemes_encodeStr _ hv, graphemesChars_cons, hdw,
            graphemesChars_cons] at hgr
          simp at hgr

/-- Witness for C7: the failure clause at a concrete nonempty fragment. -/
theorem split_from_spec_witness :
    Gc.split_from (encodeStr [0x61, 0x62]) = none ↔ ([0x61, 0x62] : List Nat) = [] :=
  (split_from_spec [0x61, 0x62] (by decide)).1

/-- Claim C10 (code bug): `Gc::base` slices `[base_len, len)`, returning the
combining-mark bytes instead of the base code point's bytes.  On the cluster
"e" + U+0308 it returns the bytes of the mark, identical to `mark_str`,
while the encoding of `base_char` is `[0x65]`; on the unmarked cluster "a"
it even returns the empty string, which is not a valid cluster at all. -/
theorem gc_base_returns_marks :
    Gc.from_str [0x65, 0xCC, 0x88] = some [0x65, 0xCC, 0x88] ∧
    Gc.base_char [0x65, 0xCC, 0x88] = 0x65 ∧
    Gc.base [0x65, 0xCC, 0x88] = [0xCC, 0x88] ∧
    Gc.mark_str [0x65, 0xCC, 0x88] = [0xCC, 0x88] ∧
    encodeChar (Gc.base_char [0x65, 0xCC, 0x88]) = [0x65] ∧
    Gc.base [0x61] = [] := by decide

/-- Claim C1 (counterexample): for the cluster "e" + U+0308 — a grapheme
cluster view with marks whose base character is 'e' — comparing against the
bare character 'e' yields `Less` (strictly before), not `Greater` as the
claim states; the reference-side implementation yields `Equal`, not
`Greater`, either. -/
theorem gc_cmp_char_counterexample :
    Gc.from_str [0x65, 0xCC, 0x88] = some [0x65, 0xCC, 0x88] ∧
    Gc.has_marks [0x65, 0xCC, 0x88] = true ∧
    Gc.base_char [0x65, 0xCC, 0x88] = 0x65 ∧
    Gc.cmpChar [0x65, 0xCC, 0x88] 0x65 = some Ordering.lt ∧
    ¬ Gc.cmpChar [0x65, 0xCC, 0x88] 0x65 = some Ordering.gt ∧
    refGcCmpChar [0x65, 0xCC, 0x88] 0x65 = some Ordering.eq := by decide

/-- Claim C1 (amended): ordering a cluster view against a character is the
normal comparison of the base character against it, except that a cluster
with marks whose base equals the character sorts strictly BEFORE the bare
character (`Less`); the reference-side implementation instead always
compares the bases (yielding `Equal` in that case). -/
theorem gc_cmp_char_amended (g : List Nat) (ch : Nat) :
    (Gc.has_marks g = true → Gc.base_char g = ch →
        Gc.cmpChar g ch = some Ordering.lt) ∧
    (¬ Gc.base_char g = ch →
        Gc.cmpChar g ch = some (charCmp (Gc.base_char g) ch)) ∧
    (Gc.has_marks g = false →
        Gc.cmpChar g ch = some (charCmp (Gc.base_char g) ch)) ∧
    refGcCmpChar g ch = some (charCmp (Gc.base_char g) ch) := by
  refine ⟨?_, ?_, ?_, ?_⟩
  · intro hm hb
    unfold Gc.cmpChar
    rw [hm, (charCmp_eq_iff _ _).mpr hb]
    rfl
  · intro hb
    unfold Gc.cmpChar
    by_cases hm : Gc.has_marks g
    · rw [hm]
      rcases hcc : charCmp (Gc.base_char g) ch with - | - | -
      · rfl
      · exact absurd ((charCmp_eq_iff _ _).mp hcc) hb
      · rfl
    · rw [Bool.not_eq_true] at hm
      rw [hm]
      rfl
  · intro hm
    unfold Gc.cmpChar
    rw [hm]
    rfl
  · unfold refGcCmpChar charCmpGc
    simp only [Option.map_some']
    rw [charCmp_swap]

/-- Witness for C1 (amended) at the concrete marked cluster "e" + U+0308. -/
theorem gc_cmp_char_amended_witness :
    Gc.cmpChar [0x65, 0xCC, 0x88] 0x65 = some Ordering.lt :=
  (gc_cmp_char_amended [0x65, 0xCC, 0x88] 0x65).1 (by decide) (by decide)

/-- Claim C2 (counterexample): cross-kind comparison between a cluster view
and a character is NOT symmetric: for the marked cluster "e" + U+0308 and
the character 'e', cluster-vs-char equality is `false` but char-vs-cluster
equality is `true` (it compares only base characters), and cluster-vs-char
ordering is `Less` while the reverse of char-vs-cluster ordering is
`Equal`. -/
theorem cross_kind_symmetry_counterexample :
    Gc.eqChar [0x65, 0xCC, 0x88] 0x65 = false ∧
    charEqGc 0x65 [0x65, 0xCC, 0x88] = true ∧
    Gc.cmpChar [0x65, 0xCC, 0x88] 0x65 = some Ordering.lt ∧
    (charCmpGc 0x65 [0x65, 0xCC, 0x88]).map Ordering.swap = some Ordering.eq := by
  decide

/-- Claim C2 (amended): cross-kind equality and ordering are symmetric
whenever the cluster has no marks or the character differs from its base;
raw-text comparisons and owned-cluster-versus-character comparisons are
symmetric unconditionally.  (For a marked cluster whose base equals the
character the char-side compares bases only, breaking symmetry, as the
counterexample shows.) -/
theorem cross_kind_symmetry_amended (g t : List Nat) (ch : Nat) :
    (Gc.has_marks g = false ∨ ¬ Gc.base_char g = ch →
        (Gc.eqChar g ch = charEqGc ch g) ∧
        (Gc.cmpChar g ch = (charCmpGc ch g).map Ordering.swap)) ∧
    (Gc.eqStr g t = strEqGc t g) ∧
    (Gc.cmpStr g t = (strCmpGc t g).map Ordering.swap) ∧
    (GcBuf.eqChar g ch = charEqGcBuf ch g) ∧
    (GcBuf.cmpChar g ch = (charCmpGcBuf ch g).map Ordering.swap) := by
  refine ⟨?_, ?_, ?_, rfl, ?_⟩
  · intro h
    constructor
    · unfold Gc.eqChar charEqGc
      rcases h with hm | hb
      · rw [hm]
        simp only [Bool.not_false, Bool.true_and]
        exact natBeq_comm _ _
      · have h1 : (Gc.base_char g == ch) = false := by
          simp only [beq_eq_false_iff_ne, ne_eq]
          exact hb
        have h2 : (ch == Gc.base_char g) = false := by
          simp only [beq_eq_false_iff_ne, ne_eq]
          exact fun hh => hb hh.symm
        rw [h1, h2, Bool.and_false]
    · unfold charCmpGc
      simp only [Option.map_some']
      rw [charCmp_swap]
      rcases h with hm | hb
      · exact (gc_cmp_char_amended g ch).2.2.1 hm
      · exact (gc_cmp_char_amended g ch).2.1 hb
  · unfold Gc.eqStr strEqGc
    exact listBeq_comm g t
  · unfold Gc.cmpStr strCmpGc
    simp only [Option.map_some']
    rw [strCompare_swap]
  · unfold GcBuf.cmpChar charCmpGcBuf
    rcases ho : Gc.cmpChar g ch with - | o
    · rfl
    · simp [Ordering.swap_swap]

/-- Witness for C2 (amended) at a concrete unmarked cluster. -/
theorem cross_kind_symmetry_amended_witness :
    (Gc.eqChar [0x61] 0x61 = charEqGc 0x61 [0x61]) ∧
      (Gc.cmpChar [0x61] 0x61 = (charCmpGc 0x61 [0x61]).map Ordering.swap) :=
  (cross_kind_symmetry_amended [0x61] [0x61] 0x61).1 (Or.inl (by decide))

/-- Claim C8 (code bug): equality of a cluster view against a character
requires no marks and an equal base, so a marked cluster is never equal to
its own base character; building an owned cluster from a character does
yield a cluster equal to that character for scalars below 0x10000, but for
every scalar with a 4-byte encoding `From for GcBuf` hits its own
`debug_unreachable!` (the `len < 4` guard rejects `len == 4`), modelled here
as `none` — e.g. for U+1F4AA, where `encode_utf8_raw` returns the four
bytes. -/
theorem gcbuf_from_char_bug :
    (∀ (g : List Nat) (ch : Nat), Gc.eqChar g ch = true ↔
        (Gc.has_marks g = false ∧ Gc.base_char g = ch)) ∧
    (∀ g : List Nat, Gc.has_marks g = true →
        Gc.eqChar g (Gc.base_char g) = false) ∧
    (∀ ch : Nat, ValidScalar ch → ch < 0x10000 →
        GcBuf.from_char ch = some (encodeChar ch) ∧
          Gc.eqChar (encodeChar ch) ch = true) ∧
    (∀ ch : Nat, 0x10000 ≤ ch → GcBuf.from_char ch = none) ∧
    GcBuf.from_char 0x1F4AA = none ∧
    encode_utf8_raw 0x1F4AA 4 = some [0xF0, 0x9F, 0x92, 0xAA] := by
  refine ⟨?_, ?_, ?_, ?_, by decide, by decide⟩
  · intro g ch
    unfold Gc.eqChar
    simp [Bool.and_eq_true, Bool.not_eq_true']
  · intro g hm
    unfold Gc.eqChar
    rw [hm]
    simp
  · intro ch hvc hch
    have henc := encode_utf8_raw_four ch
    have hlen : (encodeChar ch).length = utf8Len ch := length_encodeChar ch
    have hlt : utf8Len ch ≤ 3 := by
      unfold utf8Len
      split_ifs <;> omega
    constructor
    · unfold GcBuf.from_char
      rw [henc]
      show (if (encodeChar ch).length < 4 then some (encodeChar ch) else none) =
        some (encodeChar ch)
      rw [if_pos (by omega)]
    · unfold Gc.eqChar
      rw [has_marks_encodeChar hvc.1, base_char_encodeChar hvc.1]
      simp
  · intro ch hch
    unfold GcBuf.from_char
    rw [encode_utf8_raw_four ch]
    have hlen : (encodeChar ch).length = utf8Len ch := length_encodeChar ch
    have h4 : utf8Len ch = 4 := by
      unfold utf8Len
      split_ifs <;> omega
    show (if (encodeChar ch).length < 4 then some (encodeChar ch) else none) = none
    rw [if_neg (by omega)]

/-- Witness for C8 at the concrete character 'b': the owned cluster built
from it equals it. -/
theorem gcbuf_from_char_bug_witness :
    GcBuf.from_char 0x62 = some (encodeChar 0x62) ∧
      Gc.eqChar (encodeChar 0x62) 0x62 = true :=
  gcbuf_from_char_bug.2.2.1 0x62 (by decide) (by decide)

end Strcursor
